import Mathlib

/-!
# runsit: the directory watcher (`watchdir.go`)

A shallow embedding of `danga.com/runsit/watchdir.go`: the backend selector
`dirWatcher`, the lazy subscription `pollingDirWatcher.Updates`, and the scan
loop `pollingDirWatcher.poll` with its last-modtime table.

Go values that live behind pointers (watchers, channels) are kept in explicit
stores and addressed by their index; the effects of the loop (log lines and
sleeps) are collected in a trace; what the operating system answers to
`os.Open` and `Readdir` is an input of every loop iteration.
-/

namespace Runsit

/-! ## Library types used by the source -/

/-- Go `time.Time` as the source uses it: an instant (seconds and nanoseconds
since the epoch) together with a location. Two values with different
locations can denote the same instant. -/
structure Time where
  sec : Int
  nsec : Nat
  loc : String
  deriving DecidableEq, Repr

/-- Go `Time.Equal`: same instant, whatever the locations. -/
def Time.Equal (t u : Time) : Bool :=
  decide (t.sec = u.sec) && decide (t.nsec = u.nsec)

/-- The part of `os.FileInfo` the source reads: `Name()` and `ModTime()`. -/
structure FileInfo where
  Name : String
  ModTime : Time
  deriving DecidableEq, Repr

/-- Go `strings.HasSuffix`, on the characters of both strings. -/
def HasSuffix (s suffix : String) : Bool :=
  suffix.data.isSuffixOf s.data

/-- The Go map `map[string]time.Time`: a lookup yields the stored value and
`ok = true` (here `some`), or `ok = false` (here `none`). -/
abbrev ModTimes := String → Option Time

/-- The empty map literal `map[string]time.Time{}`. -/
def ModTimes.empty : ModTimes := fun _ => none

/-- The map assignment `last[name] = m`. -/
def ModTimes.set (last : ModTimes) (name : String) (m : Time) : ModTimes :=
  fun k => if k = name then some m else last k

/-! ## Declarations of `watchdir.go` -/

/-- The constant `buffered`. -/
def buffered : Nat := 8

/-- A value of the interface `TaskFile`, given by what `Name()` returns.
The source has no implementation of the interface. -/
structure TaskFile where
  Name : String
  deriving DecidableEq, Repr

/-- A value of the interface `DirWatcher`: an operating-system backend (not
part of this file, known only by an identifier) or a pointer to a
`pollingDirWatcher`. -/
inductive DirWatcher where
  | os (id : Nat)
  | polling (addr : Nat)
  deriving DecidableEq, Repr

/-- The struct `pollingDirWatcher`; the field `c` is `none` for a nil channel
and the address of the channel otherwise. -/
structure pollingDirWatcher where
  dir : String
  c : Option Nat
  deriving DecidableEq, Repr

/-- A buffered Go channel of `TaskFile`: its capacity and the values queued. -/
structure Chan where
  cap : Nat
  queue : List TaskFile
  deriving DecidableEq, Repr

/-- A line written through `logger.Printf`, by its format and arguments. -/
inductive LogLine where
  | errOpen (dir : String) (err : String)
  | errRead (dir : String) (err : String)
  | modtime (name : String) (m : Time)
  deriving DecidableEq, Repr

/-- An effect of the loop visible from outside besides channel traffic. -/
inductive Event where
  | log (l : LogLine)
  | sleep (seconds : Nat)
  deriving DecidableEq, Repr

/-- What the operating system answers in one loop iteration: `os.Open` fails,
or it succeeds and `Readdir(-1)` fails (possibly with some entries read), or
both succeed with the listing `fis`. -/
inductive Outcome where
  | openErr (err : String)
  | readErr (fis : List FileInfo) (err : String)
  | ok (fis : List FileInfo)
  deriving DecidableEq, Repr

/-- One pass of the body of `for _, fi := range fis` in `poll`: the table
after the entry and the log lines written for it. -/
def pollEntry (last : ModTimes) (fi : FileInfo) : ModTimes × List Event :=
  let name := fi.Name
  if !HasSuffix name ".json" then
    (last, [])
  else
    let m := fi.ModTime
    match last name with
    | some em =>
      if em.Equal m then
        (last, [])
      else
        (last.set name m, [Event.log (LogLine.modtime name m)])
    | none =>
      (last.set name m, [Event.log (LogLine.modtime name m)])

/-- The loop `for _, fi := range fis` of `poll`, in listing order. -/
def pollRange (last : ModTimes) : List FileInfo → ModTimes × List Event
  | [] => (last, [])
  | fi :: rest =>
    let r := pollEntry last fi
    let r2 := pollRange r.1 rest
    (r2.1, r.2 ++ r2.2)

/-- One iteration of the outer `for` of `poll`, for a given answer of the
operating system: the table and the effects of the iteration. Every branch
ends in `continue` or at the end of the body, so there is always a next
iteration. -/
def pollIter (w : pollingDirWatcher) (last : ModTimes) : Outcome → ModTimes × List Event
  | Outcome.openErr err =>
    (last, [Event.log (LogLine.errOpen w.dir err), Event.sleep 15])
  | Outcome.readErr _ err =>
    (last, [Event.log (LogLine.errRead w.dir err), Event.sleep 15])
  | Outcome.ok fis =>
    let r := pollRange last fis
    (r.1, r.2 ++ [Event.sleep 5])

/-- The outer loop of `poll` from a given table, run for as many iterations as
there are answers in the list. -/
def pollLoop (w : pollingDirWatcher) (last : ModTimes) : List Outcome → ModTimes × List Event
  | [] => (last, [])
  | o :: rest =>
    let r := pollIter w last o
    let r2 := pollLoop w r.1 rest
    (r2.1, r.2 ++ r2.2)

/-- The method `poll`: the table starts empty. The Go loop never ends; this is
its run over any finite number of iterations. -/
def pollingDirWatcher.poll (w : pollingDirWatcher) (outcomes : List Outcome) : ModTimes × List Event :=
  pollLoop w ModTimes.empty outcomes

/-! ## The process: stores, the selector and the subscription -/

/-- A goroutine started by `go w.poll()`: the receiver, and the local table
and the effects of the loop so far. -/
structure Goroutine where
  w : Nat
  last : ModTimes
  trace : List Event

/-- The state of the process as far as `watchdir.go` touches it: the flag
value `*configDir` (declared elsewhere in the package), the package variable
`osDirWatcher`, the allocated watchers and channels (a pointer is an index
into its store) and the started poll loops. -/
structure State where
  configDir : String
  osDirWatcher : Option DirWatcher
  watchers : List pollingDirWatcher
  chans : List Chan
  loops : List Goroutine

/-- The process before any call, with the given flag value and registered
operating-system backend. -/
def State.init (configDir : String) (osDirWatcher : Option DirWatcher) : State :=
  { configDir := configDir, osDirWatcher := osDirWatcher, watchers := [], chans := [], loops := [] }

/-- The function `dirWatcher`: the registered backend when there is one, else
a pointer to a newly allocated `pollingDirWatcher{dir: *configDir}`. -/
def dirWatcher (s : State) : DirWatcher × State :=
  match s.osDirWatcher with
  | some dw => (dw, s)
  | none =>
    (DirWatcher.polling s.watchers.length,
      { s with watchers := s.watchers ++ [{ dir := s.configDir, c := none }] })

/-- The method `Updates` on the watcher at address `w`: the returned channel
and the state after the call; `none` when `w` points to no watcher (a nil
receiver panics on `w.c`). -/
def pollingDirWatcher.Updates (w : Nat) (s : State) : Option (Nat × State) :=
  match s.watchers[w]? with
  | none => none
  | some pw =>
    match pw.c with
    | none =>
      let ch := s.chans.length
      some (ch,
        { s with
          watchers := s.watchers.set w { pw with c := some ch }
          chans := s.chans ++ [{ cap := buffered, queue := [] }]
          loops := s.loops ++ [{ w := w, last := ModTimes.empty, trace := [] }] })
    | some ch => some (ch, s)

/-- One iteration of the poll loop number `i` for the answer `o`. The loop
reads `w.dir` through its receiver; the only state it writes is its own table
and its effects. -/
def pollStep (s : State) (i : Nat) (o : Outcome) : State :=
  match s.loops[i]? with
  | none => s
  | some g =>
    match s.watchers[g.w]? with
    | none => s
    | some pw =>
      let r := pollIter pw g.last o
      { s with loops := s.loops.set i { g with last := r.1, trace := g.trace ++ r.2 } }

/-- A consumer receives from the channel at address `ch`: the oldest queued
value leaves the queue; with nothing queued the receiver waits and nothing
changes. -/
def receive (s : State) (ch : Nat) : State :=
  match s.chans[ch]? with
  | none => s
  | some c => { s with chans := s.chans.set ch { c with queue := c.queue.tail } }

/-- What can happen next in the process. -/
inductive Action where
  | callDirWatcher
  | callUpdates (w : Nat)
  | pollIteration (i : Nat) (o : Outcome)
  | receive (ch : Nat)
  deriving DecidableEq, Repr

/-- The state after one action. A call of `Updates` on a nil receiver panics
and is left out of the runs. -/
def step (s : State) : Action → State
  | Action.callDirWatcher => (dirWatcher s).2
  | Action.callUpdates w =>
    match pollingDirWatcher.Updates w s with
    | some r => r.2
    | none => s
  | Action.pollIteration i o => pollStep s i o
  | Action.receive ch => receive s ch

/-- The state after a sequence of actions. -/
def run (s : State) (acts : List Action) : State :=
  acts.foldl step s

/-- Calling `Updates` on the same watcher `n` times in a row: the channels
returned, in order, and the final state. -/
def callUpdatesTimes (w : Nat) : Nat → State → Option (List Nat × State)
  | 0, s => some ([], s)
  | n + 1, s =>
    match pollingDirWatcher.Updates w s with
    | none => none
    | some r =>
      match callUpdatesTimes w n r.2 with
      | none => none
      | some r2 => some (r.1 :: r2.1, r2.2)

/-! ## Vocabulary of the statements -/

/-- The change a log line reports, if it is a `name = ..., modtime = ...` line. -/
def Event.change : Event → Option (String × Time)
  | Event.log (LogLine.modtime n m) => some (n, m)
  | _ => none

/-- The changes reported in a trace, in order. -/
def changes (tr : List Event) : List (String × Time) :=
  tr.filterMap Event.change

/-- The changes reported in a trace for one file name. -/
def changesOf (name : String) (tr : List Event) : List (String × Time) :=
  (changes tr).filter (fun p => decide (p.1 = name))

/-- The names of a listing. -/
def names (fis : List FileInfo) : List String :=
  fis.map FileInfo.Name

/-- A listing as a directory gives it: no two entries share a name. -/
def DistinctNames (fis : List FileInfo) : Prop :=
  (names fis).Nodup

/-- The loop iteration failed to open or to list the directory. -/
def Outcome.failed : Outcome → Bool
  | Outcome.ok _ => false
  | _ => true

/-- The listing a loop iteration scans: empty when the iteration failed. -/
def Outcome.listing : Outcome → List FileInfo
  | Outcome.ok fis => fis
  | _ => []


/-- Whether the loop body treats the entry as changed for the table `last`:
the name has the suffix, and the table has no entry for it or one that is not
the same instant. -/
def entryChanged (last : ModTimes) (fi : FileInfo) : Bool :=
  HasSuffix fi.Name ".json" &&
    (match last fi.Name with
     | some em => !em.Equal fi.ModTime
     | none => true)

/-- The log line of a detected change of an entry. -/
def changeLine (fi : FileInfo) : Event :=
  Event.log (LogLine.modtime fi.Name fi.ModTime)

/-- In listings of this loop run the file `name` has the instant `T` whenever
it is listed, and every listing has distinct names. -/
def StableAt (name : String) (T : Time) (os : List Outcome) : Prop :=
  ∀ o ∈ os, DistinctNames o.listing ∧
    ∀ fi ∈ o.listing, fi.Name = name → fi.ModTime.Equal T = true

/-- The file `name` is in no listing of this loop run. -/
def AbsentFrom (name : String) (os : List Outcome) : Prop :=
  ∀ o ∈ os, name ∉ names o.listing

instance decidableDistinctNames (fis : List FileInfo) : Decidable (DistinctNames fis) :=
  inferInstanceAs (Decidable (names fis).Nodup)

instance decidableStableAt (name : String) (T : Time) (os : List Outcome) :
    Decidable (StableAt name T os) :=
  inferInstanceAs (Decidable (∀ o ∈ os, DistinctNames o.listing ∧
    ∀ fi ∈ o.listing, fi.Name = name → fi.ModTime.Equal T = true))

instance decidableAbsentFrom (name : String) (os : List Outcome) :
    Decidable (AbsentFrom name os) :=
  inferInstanceAs (Decidable (∀ o ∈ os, name ∉ names o.listing))

/-! ## Sample data -/

/-- A sample watcher, subscribed, with channel 0. -/
def sampleWatcher : pollingDirWatcher := { dir := "/etc/runsit", c := some 0 }

/-- A sample instant. -/
def T1 : Time := { sec := 1000, nsec := 0, loc := "UTC" }

/-- A later sample instant. -/
def T2 : Time := { sec := 2000, nsec := 5, loc := "UTC" }

/-- The instant of `T1` in another location. -/
def T1local : Time := { sec := 1000, nsec := 0, loc := "Local" }

/-- A sample listing: two files with the suffix and one without it. -/
def sampleListing : List FileInfo :=
  [{ Name := "alpha.json", ModTime := T1 }, { Name := "beta.txt", ModTime := T2 },
   { Name := "gamma.json", ModTime := T2 }]

/-- The sample listing after `alpha.json` was rewritten at `T2`. -/
def sampleListing2 : List FileInfo :=
  [{ Name := "alpha.json", ModTime := T2 }, { Name := "beta.txt", ModTime := T1 },
   { Name := "gamma.json", ModTime := T2 }]

/-- The sample listing without `alpha.json`. -/
def sampleListing3 : List FileInfo :=
  [{ Name := "beta.txt", ModTime := T1 }, { Name := "gamma.json", ModTime := T2 }]

/-- A table that knows `alpha.json` at the instant of `T1`. -/
def sampleTable : ModTimes := ModTimes.empty.set "alpha.json" T1local

/-- Every allocated channel has the capacity `buffered` and nothing queued. -/
def ChansEmpty (s : State) : Prop :=
  ∀ c ∈ s.chans, c = { cap := buffered, queue := [] }

instance decidableChansEmpty (s : State) : Decidable (ChansEmpty s) :=
  inferInstanceAs (Decidable (∀ c ∈ s.chans, c = { cap := buffered, queue := [] }))

/-- The state after the first call of `Updates` on the watcher `pw` at address
`w` whose channel field is nil. -/
def afterFirstUpdates (s : State) (w : Nat) (pw : pollingDirWatcher) : State :=
  { s with
    watchers := s.watchers.set w { pw with c := some s.chans.length }
    chans := s.chans ++ [{ cap := buffered, queue := [] }]
    loops := s.loops ++ [{ w := w, last := ModTimes.empty, trace := [] }] }

/-- A sample run: select the backend, subscribe, and scan a directory that
holds `alpha.json` with modtime `T1`. -/
def sampleRun : List Action :=
  [Action.callDirWatcher, Action.callUpdates 0,
   Action.pollIteration 0 (Outcome.ok [{ Name := "alpha.json", ModTime := T1 }])]

/-! ## Instants -/

theorem Time.Equal_refl (t : Time) : t.Equal t = true := by
  simp [Time.Equal]

theorem Time.Equal_symm {t u : Time} (h : t.Equal u = true) : u.Equal t = true := by
  simp [Time.Equal] at h ⊢
  exact ⟨h.1.symm, h.2.symm⟩

theorem Time.Equal_trans {t u v : Time} (h1 : t.Equal u = true) (h2 : u.Equal v = true) :
    t.Equal v = true := by
  simp [Time.Equal] at h1 h2 ⊢
  exact ⟨h1.1.trans h2.1, h1.2.trans h2.2⟩

/-! ## Traces -/

theorem changes_append (a b : List Event) : changes (a ++ b) = changes a ++ changes b := by
  simp [changes, List.filterMap_append]

theorem changesOf_append (n : String) (a b : List Event) :
    changesOf n (a ++ b) = changesOf n a ++ changesOf n b := by
  simp [changesOf, changes_append]

theorem changesOf_nil (n : String) : changesOf n [] = [] := rfl

theorem changesOf_sleep (n : String) (k : Nat) : changesOf n [Event.sleep k] = [] := rfl

theorem changesOf_changeLine_self (fi : FileInfo) :
    changesOf fi.Name [changeLine fi] = [(fi.Name, fi.ModTime)] := by
  simp [changesOf, changes, changeLine, Event.change]

theorem changesOf_changeLine_other {n : String} {fi : FileInfo} (h : fi.Name ≠ n) :
    changesOf n [changeLine fi] = [] := by
  simp [changesOf, changes, changeLine, Event.change, h]

/-! ## One entry -/

theorem pollEntry_eq (last : ModTimes) (fi : FileInfo) :
    pollEntry last fi =
      if entryChanged last fi then (last.set fi.Name fi.ModTime, [changeLine fi])
      else (last, []) := by
  unfold pollEntry entryChanged changeLine
  cases hs : HasSuffix fi.Name ".json"
  · simp [hs]
  · cases hl : last fi.Name with
    | none => simp [hs, hl]
    | some em => cases he : em.Equal fi.ModTime <;> simp [hs, hl, he]

theorem entryChanged_congr {last last2 : ModTimes} {fi : FileInfo}
    (h : last2 fi.Name = last fi.Name) : entryChanged last2 fi = entryChanged last fi := by
  simp [entryChanged, h]

theorem pollEntry_table_other (last : ModTimes) (fi : FileInfo) {n : String}
    (h : fi.Name ≠ n) : (pollEntry last fi).1 n = last n := by
  rw [pollEntry_eq]
  split
  · simp [ModTimes.set, Ne.symm h]
  · rfl

theorem pollEntry_table_notJson (last : ModTimes) (fi : FileInfo)
    (h : HasSuffix fi.Name ".json" = false) : pollEntry last fi = (last, []) := by
  rw [pollEntry_eq]
  simp [entryChanged, h]

theorem pollEntry_changesOf_other (last : ModTimes) (fi : FileInfo) {n : String}
    (h : fi.Name ≠ n) : changesOf n (pollEntry last fi).2 = [] := by
  rw [pollEntry_eq]
  split
  · exact changesOf_changeLine_other h
  · rfl

/-! ## One listing -/

theorem pollRange_cons (last : ModTimes) (fi : FileInfo) (rest : List FileInfo) :
    pollRange last (fi :: rest) =
      ((pollRange (pollEntry last fi).1 rest).1,
        (pollEntry last fi).2 ++ (pollRange (pollEntry last fi).1 rest).2) := rfl

theorem pollRange_append (last : ModTimes) (a b : List FileInfo) :
    pollRange last (a ++ b) =
      ((pollRange (pollRange last a).1 b).1,
        (pollRange last a).2 ++ (pollRange (pollRange last a).1 b).2) := by
  induction a generalizing last with
  | nil => simp [pollRange]
  | cons g rest ih =>
    simp only [List.cons_append, pollRange_cons, ih, List.append_assoc]

/-- A name that no listed entry with the suffix carries keeps its table entry
and gets no change line. -/
theorem pollRange_other (last : ModTimes) (fis : List FileInfo) (n : String)
    (h : ∀ fi ∈ fis, fi.Name = n → HasSuffix n ".json" = false) :
    (pollRange last fis).1 n = last n ∧ changesOf n (pollRange last fis).2 = [] := by
  induction fis generalizing last with
  | nil => exact ⟨rfl, rfl⟩
  | cons g rest ih =>
    have hrest : ∀ fi ∈ rest, fi.Name = n → HasSuffix n ".json" = false :=
      fun fi hfi => h fi (List.mem_cons_of_mem g hfi)
    have ih2 := ih (pollEntry last g).1 hrest
    rw [pollRange_cons]
    simp only [changesOf_append]
    by_cases hg : g.Name = n
    · have hs : HasSuffix g.Name ".json" = false := by
        rw [hg]; exact h g (List.mem_cons_self g rest) hg
      have he := pollEntry_table_notJson last g hs
      rw [he] at ih2 ⊢
      exact ⟨ih2.1, by simp [changesOf_nil, ih2.2]⟩
    · refine ⟨?_, ?_⟩
      · rw [ih2.1]; exact pollEntry_table_other last g hg
      · rw [ih2.2, pollEntry_changesOf_other last g hg]; rfl

theorem pollRange_absent (last : ModTimes) (fis : List FileInfo) (n : String)
    (h : n ∉ names fis) :
    (pollRange last fis).1 n = last n ∧ changesOf n (pollRange last fis).2 = [] := by
  apply pollRange_other
  intro fi hfi hn
  exact absurd (hn ▸ List.mem_map_of_mem FileInfo.Name hfi) h

theorem distinctNames_cons {g : FileInfo} {rest : List FileInfo}
    (h : DistinctNames (g :: rest)) : g.Name ∉ names rest ∧ DistinctNames rest := by
  simpa [DistinctNames, names] using h

/-- With distinct names every entry meets the table of the start of the scan:
the change lines of a scan are those of the entries that differ from it. -/
theorem pollRange_events (last : ModTimes) (fis : List FileInfo) (hd : DistinctNames fis) :
    (pollRange last fis).2 = (fis.filter (entryChanged last)).map changeLine := by
  induction fis generalizing last with
  | nil => rfl
  | cons g rest ih =>
    obtain ⟨hg, hrest⟩ := distinctNames_cons hd
    rw [pollRange_cons, ih _ hrest]
    have hc : rest.filter (entryChanged (pollEntry last g).1) = rest.filter (entryChanged last) := by
      apply List.filter_congr
      intro fi hfi
      apply entryChanged_congr
      apply pollEntry_table_other
      intro he
      exact hg (he ▸ List.mem_map_of_mem FileInfo.Name hfi)
    rw [hc, pollEntry_eq, List.filter_cons]
    cases hch : entryChanged last g <;> simp

/-- With distinct names the table entry of a listed file after the scan. -/
theorem pollRange_table_mem (last : ModTimes) (fis : List FileInfo) (hd : DistinctNames fis)
    (fi : FileInfo) (hfi : fi ∈ fis) :
    (pollRange last fis).1 fi.Name =
      if entryChanged last fi then some fi.ModTime else last fi.Name := by
  induction fis generalizing last with
  | nil => simp at hfi
  | cons g rest ih =>
    obtain ⟨hg, hrest⟩ := distinctNames_cons hd
    rw [pollRange_cons]
    rcases List.mem_cons.mp hfi with rfl | hmem
    · rw [(pollRange_absent _ rest fi.Name hg).1, pollEntry_eq]
      cases hch : entryChanged last fi <;> simp [ModTimes.set]
    · have hne : g.Name ≠ fi.Name := by
        intro he
        exact hg (he ▸ List.mem_map_of_mem FileInfo.Name hmem)
      have ht : (pollEntry last g).1 fi.Name = last fi.Name := pollEntry_table_other last g hne
      show (pollRange (pollEntry last g).1 rest).1 fi.Name = _
      rw [ih _ hrest hmem, entryChanged_congr ht, ht]

/-- With distinct names the change lines of a listed file in the scan. -/
theorem pollRange_changesOf_mem (last : ModTimes) (fis : List FileInfo) (hd : DistinctNames fis)
    (fi : FileInfo) (hfi : fi ∈ fis) :
    changesOf fi.Name (pollRange last fis).2 =
      if entryChanged last fi then [(fi.Name, fi.ModTime)] else [] := by
  induction fis generalizing last with
  | nil => simp at hfi
  | cons g rest ih =>
    obtain ⟨hg, hrest⟩ := distinctNames_cons hd
    rw [pollRange_cons]
    simp only [changesOf_append]
    rcases List.mem_cons.mp hfi with rfl | hmem
    · rw [(pollRange_absent _ rest fi.Name hg).2, pollEntry_eq]
      cases hch : entryChanged last fi
      · simp [changesOf_nil]
      · simp [changesOf_changeLine_self]
    · have hne : g.Name ≠ fi.Name := by
        intro he
        exact hg (he ▸ List.mem_map_of_mem FileInfo.Name hmem)
      have ht : (pollEntry last g).1 fi.Name = last fi.Name := pollEntry_table_other last g hne
      rw [pollEntry_changesOf_other last g hne, ih _ hrest hmem, entryChanged_congr ht]
      rfl

/-! ## The loop -/

theorem pollLoop_cons (w : pollingDirWatcher) (last : ModTimes) (o : Outcome) (rest : List Outcome) :
    pollLoop w last (o :: rest) =
      ((pollLoop w (pollIter w last o).1 rest).1,
        (pollIter w last o).2 ++ (pollLoop w (pollIter w last o).1 rest).2) := rfl

theorem pollLoop_append (w : pollingDirWatcher) (last : ModTimes) (a b : List Outcome) :
    pollLoop w last (a ++ b) =
      ((pollLoop w (pollLoop w last a).1 b).1,
        (pollLoop w last a).2 ++ (pollLoop w (pollLoop w last a).1 b).2) := by
  induction a generalizing last with
  | nil => simp [pollLoop]
  | cons o rest ih =>
    simp only [List.cons_append, pollLoop_cons, ih, List.append_assoc]

/-- The table after an iteration is the table after scanning its listing. -/
theorem pollIter_table (w : pollingDirWatcher) (last : ModTimes) (o : Outcome) :
    (pollIter w last o).1 = (pollRange last o.listing).1 := by
  cases o <;> rfl

/-- The change lines of an iteration are those of scanning its listing. -/
theorem pollIter_changesOf (w : pollingDirWatcher) (last : ModTimes) (o : Outcome) (n : String) :
    changesOf n (pollIter w last o).2 = changesOf n (pollRange last o.listing).2 := by
  cases o with
  | openErr err => rfl
  | readErr fis err => rfl
  | ok fis =>
    show changesOf n ((pollRange last fis).2 ++ [Event.sleep 5]) = _
    rw [changesOf_append, changesOf_sleep, List.append_nil]
    rfl

theorem pollIter_absent (w : pollingDirWatcher) (last : ModTimes) (o : Outcome) (n : String)
    (h : n ∉ names o.listing) :
    (pollIter w last o).1 n = last n ∧ changesOf n (pollIter w last o).2 = [] := by
  rw [pollIter_table, pollIter_changesOf]
  exact pollRange_absent last o.listing n h

/-- An iteration over a listing in which the file, if listed, has the instant
the table already holds for it: the entry stays and nothing is reported. -/
theorem pollIter_stable (w : pollingDirWatcher) (last : ModTimes) (o : Outcome) (n : String)
    (T t : Time) (hd : DistinctNames o.listing)
    (hT : ∀ fi ∈ o.listing, fi.Name = n → fi.ModTime.Equal T = true)
    (hl : last n = some t) (ht : t.Equal T = true) :
    (pollIter w last o).1 n = some t ∧ changesOf n (pollIter w last o).2 = [] := by
  by_cases hn : n ∈ names o.listing
  · obtain ⟨fi, hfi, hname⟩ := List.mem_map.mp hn
    have hE : t.Equal fi.ModTime = true :=
      Time.Equal_trans ht (Time.Equal_symm (hT fi hfi hname))
    have hch : entryChanged last fi = false := by
      simp [entryChanged, hname, hl, hE]
    rw [pollIter_table, pollIter_changesOf]
    have h1 := pollRange_table_mem last o.listing hd fi hfi
    have h2 := pollRange_changesOf_mem last o.listing hd fi hfi
    rw [hch, hname] at h1 h2
    simp only [Bool.false_eq_true, if_false] at h1 h2
    exact ⟨h1.trans hl, h2⟩
  · have h := pollIter_absent w last o n hn
    exact ⟨h.1.trans hl, h.2⟩

theorem pollLoop_absent (w : pollingDirWatcher) (last : ModTimes) (os : List Outcome) (n : String)
    (h : AbsentFrom n os) :
    (pollLoop w last os).1 n = last n ∧ changesOf n (pollLoop w last os).2 = [] := by
  induction os generalizing last with
  | nil => exact ⟨rfl, rfl⟩
  | cons o rest ih =>
    have ho := pollIter_absent w last o n (h o (List.mem_cons_self o rest))
    have hr := ih (pollIter w last o).1 (fun o2 h2 => h o2 (List.mem_cons_of_mem o h2))
    rw [pollLoop_cons]
    simp only [changesOf_append]
    exact ⟨hr.1.trans ho.1, by rw [ho.2, hr.2]; rfl⟩

theorem pollLoop_stable (w : pollingDirWatcher) (last : ModTimes) (os : List Outcome) (n : String)
    (T t : Time) (h : StableAt n T os) (hl : last n = some t) (ht : t.Equal T = true) :
    (pollLoop w last os).1 n = some t ∧ changesOf n (pollLoop w last os).2 = [] := by
  induction os generalizing last with
  | nil => exact ⟨hl, rfl⟩
  | cons o rest ih =>
    have hdo := h o (List.mem_cons_self o rest)
    have ho := pollIter_stable w last o n T t hdo.1 hdo.2 hl ht
    have hr := ih (pollIter w last o).1 (fun o2 h2 => h o2 (List.mem_cons_of_mem o h2)) ho.1
    rw [pollLoop_cons]
    simp only [changesOf_append]
    exact ⟨hr.1, by rw [ho.2, hr.2]; rfl⟩

theorem pollLoop_notJson (w : pollingDirWatcher) (last : ModTimes) (os : List Outcome) (n : String)
    (h : HasSuffix n ".json" = false) :
    (pollLoop w last os).1 n = last n ∧ changesOf n (pollLoop w last os).2 = [] := by
  induction os generalizing last with
  | nil => exact ⟨rfl, rfl⟩
  | cons o rest ih =>
    have ho : (pollIter w last o).1 n = last n ∧ changesOf n (pollIter w last o).2 = [] := by
      rw [pollIter_table, pollIter_changesOf]
      exact pollRange_other last o.listing n (fun _ _ _ => h)
    have hr := ih (pollIter w last o).1
    rw [pollLoop_cons]
    simp only [changesOf_append]
    exact ⟨hr.1.trans ho.1, by rw [ho.2, hr.2]; rfl⟩

theorem pollEntry_keeps (last : ModTimes) (fi : FileInfo) (n : String)
    (h : (last n).isSome = true) : ((pollEntry last fi).1 n).isSome = true := by
  rw [pollEntry_eq]
  split
  · unfold ModTimes.set
    dsimp only
    split
    · rfl
    · exact h
  · exact h

theorem pollRange_keeps (last : ModTimes) (fis : List FileInfo) (n : String)
    (h : (last n).isSome = true) : ((pollRange last fis).1 n).isSome = true := by
  induction fis generalizing last with
  | nil => exact h
  | cons g rest ih => exact ih _ (pollEntry_keeps last g n h)

theorem pollLoop_keeps (w : pollingDirWatcher) (last : ModTimes) (os : List Outcome) (n : String)
    (h : (last n).isSome = true) : ((pollLoop w last os).1 n).isSome = true := by
  induction os generalizing last with
  | nil => exact h
  | cons o rest ih =>
    apply ih
    rw [pollIter_table]
    exact pollRange_keeps last o.listing n h

/-- After a scan of a listing with distinct names every listed file with the
suffix has a table entry of the same instant as its modification time. -/
theorem pollRange_records (last : ModTimes) (fis : List FileInfo) (hd : DistinctNames fis)
    (fi : FileInfo) (hfi : fi ∈ fis) (hs : HasSuffix fi.Name ".json" = true) :
    ∃ t, (pollRange last fis).1 fi.Name = some t ∧ t.Equal fi.ModTime = true := by
  rw [pollRange_table_mem last fis hd fi hfi]
  cases hch : entryChanged last fi
  · simp only [Bool.false_eq_true, if_false]
    cases hl : last fi.Name with
    | none => simp [entryChanged, hs, hl] at hch
    | some em =>
      simp [entryChanged, hs, hl] at hch
      exact ⟨em, rfl, hch⟩
  · exact ⟨fi.ModTime, by simp, Time.Equal_refl _⟩

theorem distinctNames_unique {fis : List FileInfo} (hd : DistinctNames fis) {f g : FileInfo}
    (hf : f ∈ fis) (hg : g ∈ fis) (h : f.Name = g.Name) : f = g :=
  List.inj_on_of_nodup_map hd hf hg h

theorem changes_map_changeLine (l : List FileInfo) :
    changes (l.map changeLine) = l.map (fun fi => (fi.Name, fi.ModTime)) := by
  induction l with
  | nil => rfl
  | cons g rest ih =>
    simp only [List.map_cons]
    rw [← ih]
    rfl

/-- A change line of a scan with distinct names stems from a listed entry
with that name and modification time which differs from the table. -/
theorem pollRange_change_mem (last : ModTimes) (fis : List FileInfo) (hd : DistinctNames fis)
    (n : String) (T : Time) (h : (n, T) ∈ changes (pollRange last fis).2) :
    ∃ fi ∈ fis, fi.Name = n ∧ fi.ModTime = T ∧ entryChanged last fi = true := by
  rw [pollRange_events last fis hd, changes_map_changeLine] at h
  obtain ⟨fi, hfi, heq⟩ := List.mem_map.mp h
  obtain ⟨hmem, hch⟩ := List.mem_filter.mp hfi
  simp only [Prod.mk.injEq] at heq
  exact ⟨fi, hmem, heq.1, heq.2, hch⟩

theorem pollIter_changes_ok (w : pollingDirWatcher) (last : ModTimes) (fis : List FileInfo) :
    changes (pollIter w last (Outcome.ok fis)).2 = changes (pollRange last fis).2 := by
  show changes ((pollRange last fis).2 ++ [Event.sleep 5]) = _
  rw [changes_append]
  simp [changes, Event.change]

theorem pollIter_failed (w : pollingDirWatcher) (last : ModTimes) (o : Outcome)
    (h : o.failed = true) :
    (pollIter w last o).1 = last ∧ changes (pollIter w last o).2 = [] ∧
      ∃ l, (pollIter w last o).2 = [Event.log l, Event.sleep 15] := by
  cases o with
  | openErr err => exact ⟨rfl, rfl, _, rfl⟩
  | readErr fis err => exact ⟨rfl, rfl, _, rfl⟩
  | ok fis => simp [Outcome.failed] at h

theorem pollLoop_failed (w : pollingDirWatcher) (last : ModTimes) (fails : List Outcome)
    (h : ∀ o ∈ fails, o.failed = true) :
    (pollLoop w last fails).1 = last ∧ changes (pollLoop w last fails).2 = [] := by
  induction fails with
  | nil => exact ⟨rfl, rfl⟩
  | cons o rest ih =>
    have ho := pollIter_failed w last o (h o (List.mem_cons_self o rest))
    have hr := ih (fun o2 h2 => h o2 (List.mem_cons_of_mem o h2))
    rw [pollLoop_cons, changes_append, ho.1, ho.2.1, hr.2]
    exact ⟨hr.1, rfl⟩

/-- A scan that lists the file with the suffix leaves a table entry of the
instant listed. -/
theorem pollIter_seen (w : pollingDirWatcher) (last : ModTimes) (o : Outcome) (n : String)
    (T : Time) (hd : DistinctNames o.listing)
    (hT : ∀ fi ∈ o.listing, fi.Name = n → fi.ModTime.Equal T = true)
    (hs : HasSuffix n ".json" = true) (hn : n ∈ names o.listing) :
    ∃ t, (pollIter w last o).1 n = some t ∧ t.Equal T = true := by
  obtain ⟨fi, hfi, hname⟩ := List.mem_map.mp hn
  obtain ⟨t, h1, h2⟩ := pollRange_records last o.listing hd fi hfi (hname ▸ hs)
  rw [pollIter_table]
  exact ⟨t, hname ▸ h1, Time.Equal_trans h2 (hT fi hfi hname)⟩

theorem pollLoop_seen (w : pollingDirWatcher) (last : ModTimes) (os : List Outcome) (n : String)
    (T : Time) (h : StableAt n T os) (hs : HasSuffix n ".json" = true)
    (hseen : ∃ o ∈ os, n ∈ names o.listing) :
    ∃ t, (pollLoop w last os).1 n = some t ∧ t.Equal T = true := by
  induction os generalizing last with
  | nil => simp at hseen
  | cons o rest ih =>
    have hdo := h o (List.mem_cons_self o rest)
    have hrest : StableAt n T rest := fun o2 h2 => h o2 (List.mem_cons_of_mem o h2)
    rw [pollLoop_cons]
    by_cases hn : n ∈ names o.listing
    · obtain ⟨t, h1, h2⟩ := pollIter_seen w last o n T hdo.1 hdo.2 hs hn
      exact ⟨t, (pollLoop_stable w _ rest n T t hrest h1 h2).1, h2⟩
    · apply ih _ hrest
      obtain ⟨o2, ho2, hn2⟩ := hseen
      rcases List.mem_cons.mp ho2 with rfl | hmem
      · exact absurd hn2 hn
      · exact ⟨o2, hmem, hn2⟩

theorem pollIter_changesOf_le (w : pollingDirWatcher) (last : ModTimes) (o : Outcome) (n : String)
    (hd : DistinctNames o.listing) : (changesOf n (pollIter w last o).2).length ≤ 1 := by
  by_cases hn : n ∈ names o.listing
  · obtain ⟨fi, hfi, hname⟩ := List.mem_map.mp hn
    rw [pollIter_changesOf, ← hname, pollRange_changesOf_mem last o.listing hd fi hfi]
    split <;> simp
  · rw [(pollIter_absent w last o n hn).2]
    simp

/-- Over a loop run in which the file keeps one instant it is reported at most
once. -/
theorem pollLoop_stable_le (w : pollingDirWatcher) (last : ModTimes) (os : List Outcome)
    (n : String) (T : Time) (h : StableAt n T os) :
    (changesOf n (pollLoop w last os).2).length ≤ 1 := by
  by_cases hs : HasSuffix n ".json" = true
  · induction os generalizing last with
    | nil => simp [pollLoop, changesOf_nil]
    | cons o rest ih =>
      have hdo := h o (List.mem_cons_self o rest)
      have hrest : StableAt n T rest := fun o2 h2 => h o2 (List.mem_cons_of_mem o h2)
      rw [pollLoop_cons]
      simp only [changesOf_append, List.length_append]
      by_cases hn : n ∈ names o.listing
      · obtain ⟨t, h1, h2⟩ := pollIter_seen w last o n T hdo.1 hdo.2 hs hn
        rw [(pollLoop_stable w _ rest n T t hrest h1 h2).2]
        simpa using pollIter_changesOf_le w last o n hdo.1
      · rw [(pollIter_absent w last o n hn).2]
        simpa using ih _ hrest
  · have hf : HasSuffix n ".json" = false := by simpa using hs
    rw [(pollLoop_notJson w last os n hf).2]
    simp

/-! ## Properties of the scan -/

/-- C9: after a successful scan over a listing with pairwise distinct names,
every listed entry with the suffix has a table entry whose timestamp is the
same instant as the entry's modification time, reported or not, and the table
entries of names not in the listing are unchanged. -/
theorem C9_scan_records_modtimes (w : pollingDirWatcher) (last : ModTimes)
    (fis : List FileInfo) (hd : DistinctNames fis) :
    (∀ fi ∈ fis, HasSuffix fi.Name ".json" = true →
      ∃ t, (pollIter w last (Outcome.ok fis)).1 fi.Name = some t ∧ t.Equal fi.ModTime = true) ∧
    (∀ n, n ∉ names fis → (pollIter w last (Outcome.ok fis)).1 n = last n) := by
  refine ⟨?_, ?_⟩
  · intro fi hfi hs
    rw [pollIter_table]
    exact pollRange_records last fis hd fi hfi hs
  · intro n hn
    exact (pollIter_absent w last (Outcome.ok fis) n hn).1

theorem C9_scan_records_modtimes_witness :
    DistinctNames sampleListing ∧
    (∃ t, (pollIter sampleWatcher sampleTable (Outcome.ok sampleListing)).1 "alpha.json" = some t ∧
      t.Equal T1 = true) ∧
    (∃ t, (pollIter sampleWatcher sampleTable (Outcome.ok sampleListing)).1 "gamma.json" = some t ∧
      t.Equal T2 = true) ∧
    (pollIter sampleWatcher sampleTable (Outcome.ok sampleListing)).1 "zeta.json" =
      sampleTable "zeta.json" :=
  ⟨by decide,
    (C9_scan_records_modtimes sampleWatcher sampleTable sampleListing (by decide)).1
      { Name := "alpha.json", ModTime := T1 } (by decide) (by decide),
    (C9_scan_records_modtimes sampleWatcher sampleTable sampleListing (by decide)).1
      { Name := "gamma.json", ModTime := T2 } (by decide) (by decide),
    (C9_scan_records_modtimes sampleWatcher sampleTable sampleListing (by decide)).2
      "zeta.json" (by decide)⟩

/-- C3: over every sequence of loop iterations, a name that does not end in
the exact suffix ".json" (such as "beta.txt" or "alpha.JSON") gets no change
line, and its table entry is never added or changed, whatever the listings
and modification times are. -/
theorem C3_other_suffix_ignored (w : pollingDirWatcher) (last : ModTimes) (os : List Outcome)
    (n : String) (h : HasSuffix n ".json" = false) :
    changesOf n (pollLoop w last os).2 = [] ∧
    (pollLoop w last os).1 n = last n ∧
    (w.poll os).1 n = none := by
  refine ⟨(pollLoop_notJson w last os n h).2, (pollLoop_notJson w last os n h).1, ?_⟩
  exact (pollLoop_notJson w ModTimes.empty os n h).1

theorem C3_other_suffix_ignored_witness :
    (HasSuffix "beta.txt" ".json" = false ∧ HasSuffix "alpha.JSON" ".json" = false) ∧
    (changesOf "beta.txt"
        (pollLoop sampleWatcher sampleTable [Outcome.ok sampleListing, Outcome.ok sampleListing2]).2 = [] ∧
      (pollLoop sampleWatcher sampleTable [Outcome.ok sampleListing, Outcome.ok sampleListing2]).1
        "beta.txt" = sampleTable "beta.txt" ∧
      (sampleWatcher.poll [Outcome.ok sampleListing, Outcome.ok sampleListing2]).1 "beta.txt" = none) :=
  ⟨⟨by decide, by decide⟩,
    C3_other_suffix_ignored sampleWatcher sampleTable
      [Outcome.ok sampleListing, Outcome.ok sampleListing2] "beta.txt" (by decide)⟩

/-- C10: the table never loses an entry: a name that has an entry before a
loop iteration, successful or failed, or before any run of them, has one after
it, also when the file is no longer listed. Hence a file
reported at modtime T, then absent from the listings of some iterations, then
listed again with a modtime of the same instant as T is not reported again. -/
theorem C10_table_keeps_entries (w : pollingDirWatcher) (last : ModTimes) (n : String) :
    (∀ o, (last n).isSome = true → ((pollIter w last o).1 n).isSome = true) ∧
    (∀ os, (last n).isSome = true → ((pollLoop w last os).1 n).isSome = true) ∧
    (∀ (fis1 : List FileInfo) (T : Time) (mids : List Outcome) (fis2 : List FileInfo)
      (f2 : FileInfo), DistinctNames fis1 → (n, T) ∈ changes (pollIter w last (Outcome.ok fis1)).2 →
      AbsentFrom n mids → DistinctNames fis2 → f2 ∈ fis2 → f2.Name = n →
      f2.ModTime.Equal T = true →
      changesOf n (pollIter w (pollLoop w last (Outcome.ok fis1 :: mids)).1 (Outcome.ok fis2)).2
        = []) := by
  refine ⟨fun o h => pollLoop_keeps w last [o] n h, fun os h => pollLoop_keeps w last os n h, ?_⟩
  intro fis1 T mids fis2 f2 hd1 hrep habs hd2 hf2 hname hE
  rw [pollIter_changes_ok] at hrep
  obtain ⟨f1, hf1, hn1, hT1, hch⟩ := pollRange_change_mem last fis1 hd1 n T hrep
  have ht1 : (pollIter w last (Outcome.ok fis1)).1 n = some T := by
    have h := pollRange_table_mem last fis1 hd1 f1 hf1
    rw [hch, hn1, hT1] at h
    rw [pollIter_table]
    simpa using h
  have htm : (pollLoop w last (Outcome.ok fis1 :: mids)).1 n = some T := by
    rw [pollLoop_cons]
    exact ((pollLoop_absent w _ mids n habs).1).trans ht1
  refine (pollIter_stable w _ (Outcome.ok fis2) n T T hd2 ?_ htm (Time.Equal_refl T)).2
  intro fi hfi hfn
  have : fi = f2 := distinctNames_unique hd2 hfi hf2 (hfn.trans hname.symm)
  rw [this]
  exact hE

theorem C10_table_keeps_entries_witness :
    ((sampleTable "alpha.json").isSome = true ∧
      ((pollLoop sampleWatcher sampleTable
        [Outcome.ok sampleListing3, Outcome.openErr "EACCES"]).1 "alpha.json").isSome = true) ∧
    changesOf "alpha.json"
      (pollIter sampleWatcher
        (pollLoop sampleWatcher ModTimes.empty
          (Outcome.ok sampleListing :: [Outcome.ok sampleListing3, Outcome.openErr "EACCES"])).1
        (Outcome.ok [{ Name := "alpha.json", ModTime := T1local }])).2 = [] :=
  ⟨⟨by decide,
      (C10_table_keeps_entries sampleWatcher sampleTable "alpha.json").2.1
        [Outcome.ok sampleListing3, Outcome.openErr "EACCES"] (by decide)⟩,
    (C10_table_keeps_entries sampleWatcher ModTimes.empty "alpha.json").2.2
      sampleListing T1 [Outcome.ok sampleListing3, Outcome.openErr "EACCES"]
      [{ Name := "alpha.json", ModTime := T1local }] { Name := "alpha.json", ModTime := T1local }
      (by decide) (by decide) (by decide) (by decide) (by decide) (by decide) (by decide)⟩

/-- C1: for every table and listings with pairwise distinct names, when a
successful scan of a listing is followed by a scan of a listing in which a
file with the suffix has a modification time of the same instant, the second
scan does not report the file; over any run of iterations in which the file's
modtime keeps one instant the file is reported at most once, and an iteration
that reports it is the first one whose listing holds the file. -/
theorem C1_unchanged_modtime_reported_once (w : pollingDirWatcher) (last : ModTimes) :
    (∀ (fis1 fis2 : List FileInfo) (f1 f2 : FileInfo), DistinctNames fis1 → DistinctNames fis2 →
      f1 ∈ fis1 → f2 ∈ fis2 → HasSuffix f1.Name ".json" = true → f2.Name = f1.Name →
      f2.ModTime.Equal f1.ModTime = true →
      changesOf f1.Name
        (pollIter w (pollIter w last (Outcome.ok fis1)).1 (Outcome.ok fis2)).2 = []) ∧
    (∀ (n : String) (T : Time) (os : List Outcome), StableAt n T os →
      (changesOf n (pollLoop w last os).2).length ≤ 1 ∧
      ∀ (pre : List Outcome) (o : Outcome) (post : List Outcome), os = pre ++ o :: post →
        changesOf n (pollIter w (pollLoop w last pre).1 o).2 ≠ [] →
        n ∈ names o.listing ∧ AbsentFrom n pre) := by
  refine ⟨?_, ?_⟩
  · intro fis1 fis2 f1 f2 hd1 hd2 hf1 hf2 hs hname hE
    obtain ⟨t, ht1, ht2⟩ := pollIter_seen w last (Outcome.ok fis1) f1.Name f1.ModTime hd1
      (fun fi hfi hfn => by
        rw [distinctNames_unique hd1 hfi hf1 hfn]; exact Time.Equal_refl _)
      hs (List.mem_map_of_mem FileInfo.Name hf1)
    refine (pollIter_stable w _ (Outcome.ok fis2) f1.Name f1.ModTime t hd2 ?_ ht1 ht2).2
    intro fi hfi hfn
    rw [distinctNames_unique hd2 hfi hf2 (hfn.trans hname.symm)]
    exact hE
  · intro n T os hst
    refine ⟨pollLoop_stable_le w last os n T hst, ?_⟩
    intro pre o post hos hne
    have hpre : StableAt n T pre := fun o2 h2 => hst o2 (by rw [hos]; simp [h2])
    have hdo := hst o (by rw [hos]; simp)
    have hin : n ∈ names o.listing := by
      by_contra hn
      exact hne (pollIter_absent w _ o n hn).2
    have hs : HasSuffix n ".json" = true := by
      by_contra hf
      have hf2 : HasSuffix n ".json" = false := by simpa using hf
      apply hne
      rw [pollIter_changesOf]
      exact (pollRange_other _ o.listing n (fun _ _ _ => hf2)).2
    refine ⟨hin, ?_⟩
    by_contra habs
    have hseen : ∃ o2 ∈ pre, n ∈ names o2.listing := by
      unfold AbsentFrom at habs
      push_neg at habs
      exact habs
    obtain ⟨t, h1, h2⟩ := pollLoop_seen w last pre n T hpre hs hseen
    exact hne (pollIter_stable w _ o n T t hdo.1 hdo.2 h1 h2).2

theorem C1_unchanged_modtime_reported_once_witness :
    changesOf "alpha.json"
      (pollIter sampleWatcher (pollIter sampleWatcher ModTimes.empty (Outcome.ok sampleListing)).1
        (Outcome.ok [{ Name := "alpha.json", ModTime := T1local }])).2 = [] ∧
    (changesOf "gamma.json"
      (pollLoop sampleWatcher ModTimes.empty
        [Outcome.ok sampleListing, Outcome.openErr "EIO", Outcome.ok sampleListing2,
          Outcome.ok sampleListing3]).2).length ≤ 1 ∧
    changesOf "gamma.json"
        (pollIter sampleWatcher (pollLoop sampleWatcher ModTimes.empty []).1
          (Outcome.ok sampleListing)).2 ≠ [] ∧
    ("gamma.json" ∈ names (Outcome.ok sampleListing).listing ∧ AbsentFrom "gamma.json" []) :=
  ⟨(C1_unchanged_modtime_reported_once sampleWatcher ModTimes.empty).1
      sampleListing [{ Name := "alpha.json", ModTime := T1local }]
      { Name := "alpha.json", ModTime := T1 } { Name := "alpha.json", ModTime := T1local }
      (by decide) (by decide) (by decide) (by decide) (by decide) (by decide) (by decide),
    ((C1_unchanged_modtime_reported_once sampleWatcher ModTimes.empty).2 "gamma.json" T2
      [Outcome.ok sampleListing, Outcome.openErr "EIO", Outcome.ok sampleListing2,
        Outcome.ok sampleListing3] (by decide)).1,
    by decide,
    ((C1_unchanged_modtime_reported_once sampleWatcher ModTimes.empty).2 "gamma.json" T2
      [Outcome.ok sampleListing, Outcome.openErr "EIO", Outcome.ok sampleListing2,
        Outcome.ok sampleListing3] (by decide)).2 [] (Outcome.ok sampleListing)
      [Outcome.openErr "EIO", Outcome.ok sampleListing2, Outcome.ok sampleListing3] rfl
      (by decide)⟩

/-- C2: an entry with the suffix in a successfully scanned listing is reported
as changed exactly when the table has no entry for its name or the stored
timestamp is not the same instant as the entry's modification time: for any
listing with respect to the table when the entry is reached, and for a listing
with distinct names with respect to the table at the start of the scan. So the
first sighting of a name is reported, and a file seen at T1 and on a later
scan at another instant T2 gets two reports, one per timestamp. -/
theorem C2_reported_iff_absent_or_different (w : pollingDirWatcher) (last : ModTimes) :
    (∀ (pre : List FileInfo) (fi : FileInfo) (post : List FileInfo),
      HasSuffix fi.Name ".json" = true →
      (pollRange last (pre ++ fi :: post)).2 =
        (pollRange last pre).2 ++ (pollEntry (pollRange last pre).1 fi).2 ++
          (pollRange (pollEntry (pollRange last pre).1 fi).1 post).2 ∧
      ((pollEntry (pollRange last pre).1 fi).2 = [Event.log (LogLine.modtime fi.Name fi.ModTime)] ∨
        (pollEntry (pollRange last pre).1 fi).2 = []) ∧
      ((pollEntry (pollRange last pre).1 fi).2 = [Event.log (LogLine.modtime fi.Name fi.ModTime)] ↔
        ((pollRange last pre).1 fi.Name = none ∨
          ∃ em, (pollRange last pre).1 fi.Name = some em ∧ em.Equal fi.ModTime = false))) ∧
    (∀ (fis : List FileInfo), DistinctNames fis → ∀ fi ∈ fis, HasSuffix fi.Name ".json" = true →
      (changesOf fi.Name (pollIter w last (Outcome.ok fis)).2 = [(fi.Name, fi.ModTime)] ∨
        changesOf fi.Name (pollIter w last (Outcome.ok fis)).2 = []) ∧
      (changesOf fi.Name (pollIter w last (Outcome.ok fis)).2 = [(fi.Name, fi.ModTime)] ↔
        (last fi.Name = none ∨ ∃ em, last fi.Name = some em ∧ em.Equal fi.ModTime = false))) ∧
    (∀ (fis : List FileInfo), DistinctNames fis → ∀ fi ∈ fis, HasSuffix fi.Name ".json" = true →
      last fi.Name = none →
      changesOf fi.Name (pollIter w last (Outcome.ok fis)).2 = [(fi.Name, fi.ModTime)]) ∧
    (∀ (fis1 : List FileInfo) (f1 : FileInfo) (mids : List Outcome) (fis2 : List FileInfo)
      (f2 : FileInfo), last f1.Name = none → HasSuffix f1.Name ".json" = true →
      DistinctNames fis1 → f1 ∈ fis1 → StableAt f1.Name f1.ModTime mids →
      DistinctNames fis2 → f2 ∈ fis2 → f2.Name = f1.Name →
      f1.ModTime.Equal f2.ModTime = false →
      changesOf f1.Name (pollLoop w last (Outcome.ok fis1 :: (mids ++ [Outcome.ok fis2]))).2 =
        [(f1.Name, f1.ModTime), (f1.Name, f2.ModTime)]) := by
  have key : ∀ (tbl : ModTimes) (fi : FileInfo), HasSuffix fi.Name ".json" = true →
      (entryChanged tbl fi = true ↔
        (tbl fi.Name = none ∨ ∃ em, tbl fi.Name = some em ∧ em.Equal fi.ModTime = false)) := by
    intro tbl fi hs
    cases hl : tbl fi.Name with
    | none => simp [entryChanged, hs, hl]
    | some em => simp [entryChanged, hs, hl]
  have scan : ∀ (tbl : ModTimes) (fis : List FileInfo), DistinctNames fis → ∀ fi ∈ fis,
      changesOf fi.Name (pollIter w tbl (Outcome.ok fis)).2 =
        if entryChanged tbl fi then [(fi.Name, fi.ModTime)] else [] := by
    intro tbl fis hd fi hfi
    rw [pollIter_changesOf]
    exact pollRange_changesOf_mem tbl fis hd fi hfi
  refine ⟨?_, ?_, ?_, ?_⟩
  · intro pre fi post hs
    refine ⟨?_, ?_, ?_⟩
    · rw [pollRange_append, pollRange_cons, List.append_assoc]
    · rw [pollEntry_eq]
      cases entryChanged (pollRange last pre).1 fi
      · right; rfl
      · left; rfl
    · rw [← key _ fi hs, pollEntry_eq]
      cases entryChanged (pollRange last pre).1 fi <;> simp [changeLine]
  · intro fis hd fi hfi hs
    rw [scan last fis hd fi hfi, ← key last fi hs]
    cases entryChanged last fi <;> simp
  · intro fis hd fi hfi hs hl
    rw [scan last fis hd fi hfi, (key last fi hs).mpr (Or.inl hl)]
    rfl
  · intro fis1 f1 mids fis2 f2 hl hs hd1 hf1 hst hd2 hf2 hname hne
    have hc1 : entryChanged last f1 = true := (key last f1 hs).mpr (Or.inl hl)
    have ht1 : (pollIter w last (Outcome.ok fis1)).1 f1.Name = some f1.ModTime := by
      have h := pollRange_table_mem last fis1 hd1 f1 hf1
      rw [hc1] at h
      rw [pollIter_table]
      simpa using h
    have hm := pollLoop_stable w (pollIter w last (Outcome.ok fis1)).1 mids f1.Name f1.ModTime
      f1.ModTime hst ht1 (Time.Equal_refl _)
    have hc2 : entryChanged (pollLoop w (pollIter w last (Outcome.ok fis1)).1 mids).1 f2 = true := by
      apply (key _ f2 (hname ▸ hs)).mpr
      right
      exact ⟨f1.ModTime, hname ▸ hm.1, hne⟩
    have h2 := scan (pollLoop w (pollIter w last (Outcome.ok fis1)).1 mids).1 fis2 hd2 f2 hf2
    rw [hc2, hname] at h2
    rw [pollLoop_cons, pollLoop_append]
    simp only [changesOf_append]
    rw [scan last fis1 hd1 f1 hf1, hc1, hm.2, pollLoop_cons, changesOf_append, h2]
    simp [pollLoop, changesOf_nil]

theorem C2_reported_iff_absent_or_different_witness :
    (changesOf "alpha.json" (pollIter sampleWatcher sampleTable (Outcome.ok sampleListing2)).2 =
        [("alpha.json", T2)] ↔
      (sampleTable "alpha.json" = none ∨
        ∃ em, sampleTable "alpha.json" = some em ∧ em.Equal T2 = false)) ∧
    changesOf "alpha.json" (pollIter sampleWatcher ModTimes.empty (Outcome.ok sampleListing)).2 =
      [("alpha.json", T1)] ∧
    changesOf "alpha.json"
      (pollLoop sampleWatcher ModTimes.empty
        (Outcome.ok sampleListing ::
          ([Outcome.openErr "EIO", Outcome.ok sampleListing] ++ [Outcome.ok sampleListing2]))).2 =
      [("alpha.json", T1), ("alpha.json", T2)] :=
  ⟨((C2_reported_iff_absent_or_different sampleWatcher sampleTable).2.1 sampleListing2
      (by decide) { Name := "alpha.json", ModTime := T2 } (by decide) (by decide)).2,
    (C2_reported_iff_absent_or_different sampleWatcher ModTimes.empty).2.2.1 sampleListing
      (by decide) { Name := "alpha.json", ModTime := T1 } (by decide) (by decide) (by decide),
    (C2_reported_iff_absent_or_different sampleWatcher ModTimes.empty).2.2.2 sampleListing
      { Name := "alpha.json", ModTime := T1 } [Outcome.openErr "EIO", Outcome.ok sampleListing]
      sampleListing2 { Name := "alpha.json", ModTime := T2 }
      (by decide) (by decide) (by decide) (by decide) (by decide) (by decide) (by decide)
      (by decide) (by decide)⟩

/-- C7: for every table and any number of leading iterations that fail to open
or to list the directory: a failed iteration leaves the table unchanged,
reports no change, logs the error and sleeps 15 seconds, and the loop goes on
with the next iteration; the first successful scan after the failures gives
the table and the reports it would give without them; and a file the table
does not know, listed at a stable modtime from then on, is reported exactly
once, in that first successful scan. -/
theorem C7_failed_scans_only_delay (w : pollingDirWatcher) (last : ModTimes)
    (fails : List Outcome) (hf : ∀ o ∈ fails, o.failed = true) :
    (∀ o ∈ fails, ∀ (tbl : ModTimes), (pollIter w tbl o).1 = tbl ∧
      changes (pollIter w tbl o).2 = [] ∧
      ∃ l, (pollIter w tbl o).2 = [Event.log l, Event.sleep 15]) ∧
    ((pollLoop w last fails).1 = last ∧ changes (pollLoop w last fails).2 = []) ∧
    (∀ (rest : List Outcome),
      (pollLoop w last (fails ++ rest)).1 = (pollLoop w last rest).1 ∧
      changes (pollLoop w last (fails ++ rest)).2 = changes (pollLoop w last rest).2) ∧
    (∀ (fis : List FileInfo),
      pollIter w (pollLoop w last fails).1 (Outcome.ok fis) = pollIter w last (Outcome.ok fis)) ∧
    (∀ (fis : List FileInfo) (f : FileInfo) (rest : List Outcome), last f.Name = none →
      HasSuffix f.Name ".json" = true → f ∈ fis →
      StableAt f.Name f.ModTime (Outcome.ok fis :: rest) →
      changesOf f.Name (pollLoop w last fails).2 = [] ∧
      changesOf f.Name (pollIter w (pollLoop w last fails).1 (Outcome.ok fis)).2 =
        [(f.Name, f.ModTime)] ∧
      changesOf f.Name (pollLoop w last (fails ++ Outcome.ok fis :: rest)).2 =
        [(f.Name, f.ModTime)]) := by
  have hfl := pollLoop_failed w last fails hf
  have hnone : ∀ n, changesOf n (pollLoop w last fails).2 = [] := by
    intro n
    unfold changesOf
    rw [hfl.2]
    rfl
  refine ⟨?_, hfl, ?_, ?_, ?_⟩
  · intro o ho tbl
    exact pollIter_failed w tbl o (hf o ho)
  · intro rest
    rw [pollLoop_append, hfl.1, changes_append, hfl.2]
    exact ⟨rfl, rfl⟩
  · intro fis
    rw [hfl.1]
  · intro fis f rest hl hs hmem hst
    have hdo := hst (Outcome.ok fis) (List.mem_cons_self _ rest)
    have hrest : StableAt f.Name f.ModTime rest :=
      fun o2 h2 => hst o2 (List.mem_cons_of_mem _ h2)
    have hc : entryChanged last f = true := by simp [entryChanged, hs, hl]
    have h1 : changesOf f.Name (pollIter w last (Outcome.ok fis)).2 = [(f.Name, f.ModTime)] := by
      rw [pollIter_changesOf]
      have h := pollRange_changesOf_mem last fis hdo.1 f hmem
      rw [hc] at h
      simpa using h
    have ht : (pollIter w last (Outcome.ok fis)).1 f.Name = some f.ModTime := by
      have h := pollRange_table_mem last fis hdo.1 f hmem
      rw [hc] at h
      rw [pollIter_table]
      simpa using h
    have h2 := pollLoop_stable w (pollIter w last (Outcome.ok fis)).1 rest f.Name f.ModTime
      f.ModTime hrest ht (Time.Equal_refl _)
    refine ⟨hnone f.Name, ?_, ?_⟩
    · rw [hfl.1]; exact h1
    · rw [pollLoop_append, changesOf_append, hnone f.Name, hfl.1, pollLoop_cons,
        changesOf_append, h1, h2.2]
      rfl

theorem C7_failed_scans_only_delay_witness :
    (∀ o ∈ [Outcome.openErr "ENOENT", Outcome.readErr sampleListing2 "EIO"], o.failed = true) ∧
    (pollLoop sampleWatcher ModTimes.empty
      [Outcome.openErr "ENOENT", Outcome.readErr sampleListing2 "EIO"]).1 = ModTimes.empty ∧
    changesOf "gamma.json"
      (pollLoop sampleWatcher ModTimes.empty
        ([Outcome.openErr "ENOENT", Outcome.readErr sampleListing2 "EIO"] ++
          Outcome.ok sampleListing :: [Outcome.ok sampleListing2, Outcome.ok sampleListing3])).2 =
      [("gamma.json", T2)] :=
  ⟨by decide,
    (C7_failed_scans_only_delay sampleWatcher ModTimes.empty
      [Outcome.openErr "ENOENT", Outcome.readErr sampleListing2 "EIO"] (by decide)).2.1.1,
    ((C7_failed_scans_only_delay sampleWatcher ModTimes.empty
      [Outcome.openErr "ENOENT", Outcome.readErr sampleListing2 "EIO"] (by decide)).2.2.2.2
      sampleListing { Name := "gamma.json", ModTime := T2 }
      [Outcome.ok sampleListing2, Outcome.ok sampleListing3]
      (by decide) (by decide) (by decide) (by decide)).2.2⟩

/-! ## The process -/

theorem Updates_of_nil (s : State) (w : Nat) (pw : pollingDirWatcher)
    (hw : s.watchers[w]? = some pw) (hc : pw.c = none) :
    pollingDirWatcher.Updates w s = some (s.chans.length, afterFirstUpdates s w pw) := by
  simp [pollingDirWatcher.Updates, hw, hc, afterFirstUpdates]

theorem Updates_of_chan (s : State) (w : Nat) (pw : pollingDirWatcher) (ch : Nat)
    (hw : s.watchers[w]? = some pw) (hc : pw.c = some ch) :
    pollingDirWatcher.Updates w s = some (ch, s) := by
  simp [pollingDirWatcher.Updates, hw, hc]

theorem callUpdatesTimes_of_chan (s : State) (w : Nat) (pw : pollingDirWatcher) (ch : Nat)
    (hw : s.watchers[w]? = some pw) (hc : pw.c = some ch) (k : Nat) :
    callUpdatesTimes w k s = some (List.replicate k ch, s) := by
  induction k with
  | zero => rfl
  | succ k ih =>
    simp [callUpdatesTimes, Updates_of_chan s w pw ch hw hc, ih, List.replicate_succ]

theorem afterFirstUpdates_watcher (s : State) (w : Nat) (pw : pollingDirWatcher)
    (hw : s.watchers[w]? = some pw) :
    (afterFirstUpdates s w pw).watchers[w]? = some { pw with c := some s.chans.length } := by
  obtain ⟨hlt, _⟩ := List.getElem?_eq_some.mp hw
  exact List.getElem?_set_self hlt

theorem pollStep_chans (s : State) (i : Nat) (o : Outcome) : (pollStep s i o).chans = s.chans := by
  unfold pollStep
  split
  · rfl
  · split
    · rfl
    · rfl

theorem step_chansEmpty (s : State) (a : Action) (h : ChansEmpty s) : ChansEmpty (step s a) := by
  cases a with
  | callDirWatcher =>
    show ChansEmpty (dirWatcher s).2
    unfold dirWatcher
    cases s.osDirWatcher with
    | none => exact h
    | some dw => exact h
  | callUpdates w =>
    show ChansEmpty (match pollingDirWatcher.Updates w s with
      | some r => r.2
      | none => s)
    cases hw : s.watchers[w]? with
    | none =>
      have hnone : pollingDirWatcher.Updates w s = none := by
        simp [pollingDirWatcher.Updates, hw]
      rw [hnone]
      exact h
    | some pw =>
      cases hc : pw.c with
      | some ch =>
        rw [Updates_of_chan s w pw ch hw hc]
        exact h
      | none =>
        rw [Updates_of_nil s w pw hw hc]
        intro c hmem
        have hmem2 : c ∈ s.chans ++ [{ cap := buffered, queue := [] }] := hmem
        simp only [List.mem_append, List.mem_singleton] at hmem2
        rcases hmem2 with hmem2 | hmem2
        · exact h c hmem2
        · exact hmem2
  | pollIteration i o =>
    intro c hmem
    have hmem2 : c ∈ (pollStep s i o).chans := hmem
    rw [pollStep_chans] at hmem2
    exact h c hmem2
  | receive ch =>
    show ChansEmpty (receive s ch)
    unfold receive
    cases hq : s.chans[ch]? with
    | none => exact h
    | some c0 =>
      intro c hmem
      rcases List.mem_or_eq_of_mem_set hmem with hmem | hmem
      · exact h c hmem
      · have h0 := h c0 (List.getElem?_mem hq)
        rw [hmem, h0]
        rfl

theorem run_chansEmpty (s : State) (acts : List Action) (h : ChansEmpty s) :
    ChansEmpty (run s acts) := by
  induction acts generalizing s with
  | nil => exact h
  | cons a rest ih => exact ih (step s a) (step_chansEmpty s a h)

theorem entryChanged_iff (tbl : ModTimes) (fi : FileInfo) (hs : HasSuffix fi.Name ".json" = true) :
    entryChanged tbl fi = true ↔
      (tbl fi.Name = none ∨ ∃ em, tbl fi.Name = some em ∧ em.Equal fi.ModTime = false) := by
  cases hl : tbl fi.Name with
  | none => simp [entryChanged, hs, hl]
  | some em => simp [entryChanged, hs, hl]

/-- C5: on a watcher whose channel field is nil, any number of calls of
`Updates` in a row, at least one, return the same channel every time, and
leave the state of the first call: one channel allocated, one poll loop
started, the channel stored in the watcher. On a watcher that already has a
channel a call returns that channel and changes nothing. -/
theorem C5_updates_same_channel_one_loop (s : State) (w : Nat) (pw : pollingDirWatcher)
    (hw : s.watchers[w]? = some pw) :
    (pw.c = none →
      pollingDirWatcher.Updates w s = some (s.chans.length, afterFirstUpdates s w pw) ∧
      (afterFirstUpdates s w pw).chans = s.chans ++ [{ cap := buffered, queue := [] }] ∧
      (afterFirstUpdates s w pw).loops.length = s.loops.length + 1 ∧
      (afterFirstUpdates s w pw).watchers[w]? = some { dir := pw.dir, c := some s.chans.length } ∧
      ∀ k, callUpdatesTimes w (k + 1) s =
        some (List.replicate (k + 1) s.chans.length, afterFirstUpdates s w pw)) ∧
    (∀ ch, pw.c = some ch →
      pollingDirWatcher.Updates w s = some (ch, s) ∧
      ∀ k, callUpdatesTimes w k s = some (List.replicate k ch, s)) := by
  refine ⟨?_, ?_⟩
  · intro hc
    have h1 := Updates_of_nil s w pw hw hc
    have h2 := afterFirstUpdates_watcher s w pw hw
    refine ⟨h1, rfl, by simp [afterFirstUpdates], h2, ?_⟩
    intro k
    have h3 := callUpdatesTimes_of_chan (afterFirstUpdates s w pw) w _ s.chans.length h2 rfl k
    simp [callUpdatesTimes, h1, h3, List.replicate_succ]
  · intro ch hc
    exact ⟨Updates_of_chan s w pw ch hw hc, callUpdatesTimes_of_chan s w pw ch hw hc⟩

theorem C5_updates_same_channel_one_loop_witness :
    (callUpdatesTimes 0 3 (dirWatcher (State.init "/etc/runsit" none)).2 =
      some ([0, 0, 0],
        afterFirstUpdates (dirWatcher (State.init "/etc/runsit" none)).2 0
          { dir := "/etc/runsit", c := none })) ∧
    (afterFirstUpdates (dirWatcher (State.init "/etc/runsit" none)).2 0
      { dir := "/etc/runsit", c := none }).loops.length = 1 :=
  ⟨((C5_updates_same_channel_one_loop (dirWatcher (State.init "/etc/runsit" none)).2 0
      { dir := "/etc/runsit", c := none } rfl).1 rfl).2.2.2.2 2,
    ((C5_updates_same_channel_one_loop (dirWatcher (State.init "/etc/runsit" none)).2 0
      { dir := "/etc/runsit", c := none } rfl).1 rfl).2.2.1⟩

/-- C8: the channel of a watcher is created with the capacity `buffered = 8`,
and in every state the process reaches by calls of `dirWatcher` and `Updates`,
poll iterations and receives, every channel holds at most 8 values and is not
full, so the producer never meets a full channel and drops nothing for it. -/
theorem C8_channel_within_capacity (configDir : String) (os : Option DirWatcher)
    (acts : List Action) (ch : Nat) (c : Chan)
    (h : (run (State.init configDir os) acts).chans[ch]? = some c) :
    buffered = 8 ∧ c.cap = buffered ∧ c.queue.length ≤ 8 ∧ c.queue.length < c.cap := by
  have hinit : ChansEmpty (State.init configDir os) := by
    intro c0 hmem
    simp [State.init] at hmem
  have hc := run_chansEmpty _ acts hinit c (List.getElem?_mem h)
  rw [hc]
  simp [buffered]

theorem C8_channel_within_capacity_witness :
    (run (State.init "/etc/runsit" none) (sampleRun ++ [Action.receive 0])).chans[0]? =
      some { cap := 8, queue := [] } ∧
    (buffered = 8 ∧ (8 : Nat) = buffered ∧ ([] : List TaskFile).length ≤ 8 ∧
      ([] : List TaskFile).length < 8) :=
  ⟨by decide,
    C8_channel_within_capacity "/etc/runsit" none (sampleRun ++ [Action.receive 0]) 0
      { cap := 8, queue := [] } (by decide)⟩

/-- C4, as stated, fails: after the backend is selected and subscribed
(`Updates` returns channel 0) a successful scan detects `alpha.json` first
seen at `T1` and logs it, no receive happens, and the channel holds no
`TaskFile`: nothing was sent, and no value named "alpha" is queued. -/
theorem C4_no_taskfile_sent :
    pollingDirWatcher.Updates 0 (dirWatcher (State.init "/etc/runsit" none)).2 =
      some (0, run (State.init "/etc/runsit" none) [Action.callDirWatcher, Action.callUpdates 0]) ∧
    (run (State.init "/etc/runsit" none) sampleRun).loops.map Goroutine.trace =
      [[Event.log (LogLine.modtime "alpha.json" T1), Event.sleep 5]] ∧
    (run (State.init "/etc/runsit" none) sampleRun).chans = [{ cap := 8, queue := [] }] ∧
    ¬ ∃ c tf, (run (State.init "/etc/runsit" none) sampleRun).chans[0]? = some c ∧
      c.queue = [tf] ∧ tf.Name = "alpha" := by
  refine ⟨rfl, by decide, by decide, ?_⟩
  rintro ⟨c, tf, hc, hq, _⟩
  have h0 : (run (State.init "/etc/runsit" none) sampleRun).chans[0]? =
      some { cap := 8, queue := [] } := by decide
  rw [h0] at hc
  cases hc
  cases hq

/-- C4, amended: a poll iteration sends nothing, it leaves every channel as it
was; for a successful scan of a listing with distinct names that detects a
changed file with the suffix the loop writes exactly one change line for that
file, with the full file name, suffix included, and its modification time. -/
theorem C4_detection_logged_not_sent (s : State) (i : Nat) (o : Outcome) :
    (pollStep s i o).chans = s.chans ∧
    (∀ (g : Goroutine) (pw : pollingDirWatcher) (fis : List FileInfo) (fi : FileInfo),
      s.loops[i]? = some g → s.watchers[g.w]? = some pw → o = Outcome.ok fis →
      DistinctNames fis → fi ∈ fis → HasSuffix fi.Name ".json" = true →
      (g.last fi.Name = none ∨ ∃ em, g.last fi.Name = some em ∧ em.Equal fi.ModTime = false) →
      ∃ g2 ev, (pollStep s i o).loops[i]? = some g2 ∧ g2.trace = g.trace ++ ev ∧
        changesOf fi.Name ev = [(fi.Name, fi.ModTime)]) := by
  refine ⟨pollStep_chans s i o, ?_⟩
  intro g pw fis fi hg hpw ho hd hfi hs hch
  have hlt : i < s.loops.length := (List.getElem?_eq_some.mp hg).1
  refine ⟨{ g with last := (pollIter pw g.last o).1, trace := g.trace ++ (pollIter pw g.last o).2 },
    (pollIter pw g.last o).2, ?_, rfl, ?_⟩
  · simp only [pollStep, hg, hpw]
    exact List.getElem?_set_self hlt
  · rw [ho, pollIter_changesOf]
    have h := pollRange_changesOf_mem g.last fis hd fi hfi
    rw [(entryChanged_iff g.last fi hs).mpr hch] at h
    simpa using h

theorem C4_detection_logged_not_sent_witness :
    ∃ g2 ev, (pollStep
        (run (State.init "/etc/runsit" none) [Action.callDirWatcher, Action.callUpdates 0]) 0
        (Outcome.ok sampleListing)).loops[0]? = some g2 ∧
      g2.trace = [] ++ ev ∧ changesOf "alpha.json" ev = [("alpha.json", T1)] :=
  (C4_detection_logged_not_sent
    (run (State.init "/etc/runsit" none) [Action.callDirWatcher, Action.callUpdates 0]) 0
    (Outcome.ok sampleListing)).2
    { w := 0, last := ModTimes.empty, trace := [] } { dir := "/etc/runsit", c := some 0 }
    sampleListing { Name := "alpha.json", ModTime := T1 }
    rfl rfl rfl (by decide) (by decide) (by decide) (Or.inl rfl)

/-- C6, as stated, fails: with no operating-system backend registered two
calls of `dirWatcher` return two different watchers. -/
theorem C6_two_calls_two_watchers :
    (State.init "/etc/runsit" none).osDirWatcher = none ∧
    (dirWatcher (State.init "/etc/runsit" none)).1 = DirWatcher.polling 0 ∧
    (dirWatcher (dirWatcher (State.init "/etc/runsit" none)).2).1 = DirWatcher.polling 1 ∧
    (dirWatcher (State.init "/etc/runsit" none)).1 ≠
      (dirWatcher (dirWatcher (State.init "/etc/runsit" none)).2).1 := by
  decide

/-- C6, amended: with no operating-system backend registered every call of
`dirWatcher` allocates a new polling watcher for `*configDir` with a nil
channel, so two calls return two different watchers, and subscribing to both
gives two different channels and two poll loops; with a backend registered
every call returns that backend and allocates nothing. -/
theorem C6_dirWatcher_allocates_each_call (s : State) :
    (s.osDirWatcher = none →
      (dirWatcher s).1 = DirWatcher.polling s.watchers.length ∧
      (dirWatcher (dirWatcher s).2).1 = DirWatcher.polling (s.watchers.length + 1) ∧
      (dirWatcher s).1 ≠ (dirWatcher (dirWatcher s).2).1 ∧
      (dirWatcher (dirWatcher s).2).2.watchers =
        s.watchers ++ [{ dir := s.configDir, c := none }, { dir := s.configDir, c := none }] ∧
      ∃ s3 s4,
        pollingDirWatcher.Updates s.watchers.length (dirWatcher (dirWatcher s).2).2 =
          some (s.chans.length, s3) ∧
        pollingDirWatcher.Updates (s.watchers.length + 1) s3 = some (s.chans.length + 1, s4) ∧
        s4.loops.length = s.loops.length + 2) ∧
    (∀ dw, s.osDirWatcher = some dw →
      dirWatcher s = (dw, s) ∧ dirWatcher (dirWatcher s).2 = (dw, s)) := by
  refine ⟨?_, ?_⟩
  · intro hn
    have h1 : dirWatcher s = (DirWatcher.polling s.watchers.length,
        { s with watchers := s.watchers ++ [{ dir := s.configDir, c := none }] }) := by
      simp [dirWatcher, hn]
    have h2 : dirWatcher (dirWatcher s).2 = (DirWatcher.polling (s.watchers.length + 1),
        { s with watchers := s.watchers ++
          [{ dir := s.configDir, c := none }, { dir := s.configDir, c := none }] }) := by
      rw [h1]
      simp [dirWatcher, hn]
    refine ⟨by rw [h1], by rw [h2], by rw [h2, h1]; simp, by rw [h2], ?_⟩
    rw [h2]
    have hw1 : (s.watchers ++
        [({ dir := s.configDir, c := none } : pollingDirWatcher),
          { dir := s.configDir, c := none }])[s.watchers.length]? =
        some { dir := s.configDir, c := none } := by
      rw [List.getElem?_append_right (le_refl _)]
      simp
    have hu1 := Updates_of_nil
      { s with watchers := s.watchers ++
        [{ dir := s.configDir, c := none }, { dir := s.configDir, c := none }] }
      s.watchers.length { dir := s.configDir, c := none } hw1 rfl
    have hw2 : (afterFirstUpdates
        { s with watchers := s.watchers ++
          [{ dir := s.configDir, c := none }, { dir := s.configDir, c := none }] }
        s.watchers.length { dir := s.configDir, c := none }).watchers[s.watchers.length + 1]? =
        some { dir := s.configDir, c := none } := by
      show ((s.watchers ++
        [({ dir := s.configDir, c := none } : pollingDirWatcher),
          { dir := s.configDir, c := none }]).set s.watchers.length _)[s.watchers.length + 1]? = _
      rw [List.getElem?_set_ne (Nat.ne_of_lt (Nat.lt_succ_self _)),
        List.getElem?_append_right (Nat.le_succ _)]
      simp
    have hu2 := Updates_of_nil _ (s.watchers.length + 1) { dir := s.configDir, c := none } hw2 rfl
    have hlen : (afterFirstUpdates
        { s with watchers := s.watchers ++
          [{ dir := s.configDir, c := none }, { dir := s.configDir, c := none }] }
        s.watchers.length { dir := s.configDir, c := none }).chans.length = s.chans.length + 1 := by
      simp [afterFirstUpdates]
    rw [hlen] at hu2
    exact ⟨_, _, hu1, hu2, by simp [afterFirstUpdates]⟩
  · intro dw hd
    have h1 : dirWatcher s = (dw, s) := by simp [dirWatcher, hd]
    exact ⟨h1, by rw [h1]; exact h1⟩

theorem C6_dirWatcher_allocates_each_call_witness :
    ((dirWatcher (State.init "/srv/tasks" none)).1 = DirWatcher.polling 0 ∧
      (dirWatcher (dirWatcher (State.init "/srv/tasks" none)).2).1 = DirWatcher.polling (0 + 1)) ∧
    (dirWatcher (State.init "/srv/tasks" none)).1 ≠
      (dirWatcher (dirWatcher (State.init "/srv/tasks" none)).2).1 ∧
    dirWatcher (State.init "/srv/tasks" (some (DirWatcher.os 7))) =
      (DirWatcher.os 7, State.init "/srv/tasks" (some (DirWatcher.os 7))) :=
  ⟨⟨((C6_dirWatcher_allocates_each_call (State.init "/srv/tasks" none)).1 rfl).1,
      ((C6_dirWatcher_allocates_each_call (State.init "/srv/tasks" none)).1 rfl).2.1⟩,
    ((C6_dirWatcher_allocates_each_call (State.init "/srv/tasks" none)).1 rfl).2.2.1,
    ((C6_dirWatcher_allocates_each_call (State.init "/srv/tasks" (some (DirWatcher.os 7)))).2
      (DirWatcher.os 7) rfl).1⟩

end Runsit
